import Mathlib

/-!
Verification of the core numeric subsystems of the `aw-webui-lukas` repository:
the activity interval aggregator (`src/services/awServerApi.ts`) and the daily
target allocation engine (the `DailyTargetsManager` composable, present in the
repository in several revisions; the revision matching the current
`src/types/index.ts`, where `DistributionMode = 'custom'`, is the one modelled
for the operations it defines, and `autoBalance` — which exists only in the
older revision that still has an `'equal'` mode — is modelled from that
revision, mode handling included).

JavaScript `number` arithmetic is modelled over `ℚ`; `Math.round` is
round-half-up (`⌊x + 1/2⌋`); a `Record<string, number>` whose keys range over
the five weekdays is modelled as `Day → Option ℚ` (`none` = key absent), with
the JavaScript coercion `v || 0` modelled as `Option.getD · 0` and truthiness
of a number as "present and nonzero". Timestamps are seconds (ℚ) rather than
milliseconds; the 1000 ms fusion threshold is therefore the constant `1`.
-/

namespace AwWebui

/-- The five workday keys (`WORKDAYS` in the source). -/
inductive Day where
  | monday | tuesday | wednesday | thursday | friday
deriving DecidableEq, Repr, Fintype

/-- Source: `const WORKDAYS = ['monday', ..., 'friday']`. -/
def WORKDAYS : List Day := [.monday, .tuesday, .wednesday, .thursday, .friday]

/-- The persisted `DailyTargetsConfig`.  `modeCustom` is `mode === 'custom'`
(the older revision also has an `'equal'` mode; the current one only
`'custom'`).  `customTargets` maps a weekday to its stored hours, `none`
meaning the key is absent from the record. -/
structure DailyTargetsConfig where
  modeCustom : Bool
  customTargets : Day → Option ℚ
  weeklyTarget : ℚ
  locked : Day → Bool

/-- Source `getEqualDistribution`: `weeklyTarget / WORKDAYS.length` for every day. -/
def getEqualDistribution (c : DailyTargetsConfig) : Day → ℚ :=
  fun _ => c.weeklyTarget / 5

/-- The `dailyTargets` getter of the older revision: the equal distribution in
`'equal'` mode, the custom record (absent key ↦ 0) in `'custom'` mode. -/
def dailyTargets (c : DailyTargetsConfig) : Day → ℚ :=
  if c.modeCustom then fun d => (c.customTargets d).getD 0
  else getEqualDistribution c

/-- Sum of a per-day quantity over the five workdays. -/
def sumDays (f : Day → ℚ) : ℚ := (WORKDAYS.map f).sum

/-- The `weeklyTotal` getter: sum of the displayed daily targets. -/
def weeklyTotal (c : DailyTargetsConfig) : ℚ := sumDays (dailyTargets c)

/-- Source `isLocked(day)`: `lockedDays?.[day] || false`. -/
def isLocked (c : DailyTargetsConfig) (d : Day) : Bool := c.locked d

/-- Source check `Object.keys(customTargets).length === 0`. -/
def customTargetsEmpty (c : DailyTargetsConfig) : Bool :=
  WORKDAYS.all fun d => (c.customTargets d).isNone

/-- Source `setMode('custom')`: initialises `customTargets` with the equal
distribution when the record is empty, then sets the mode. -/
def setModeCustom (c : DailyTargetsConfig) : DailyTargetsConfig :=
  { c with
    modeCustom := true
    customTargets :=
      if customTargetsEmpty c then fun _ => some (c.weeklyTarget / 5)
      else c.customTargets }

/-- Source `updateDayTarget(day, newHours)` (identical in every revision; the
`dailyTargets` read is the mode-aware getter of the older revision).  The
modified day is set to `newHours`; `-difference / otherDays.length` is added
to every other unlocked day, clamped below at `5/60`; the result is stored as
the custom record and the mode becomes `'custom'`. -/
def updateDayTarget (c : DailyTargetsConfig) (day : Day) (newHours : ℚ) :
    DailyTargetsConfig :=
  if c.locked day then c
  else
    let oldHours : ℚ := dailyTargets c day
    let difference : ℚ := newHours - oldHours
    let otherDays : List Day := WORKDAYS.filter fun d => !(d == day) && !c.locked d
    -- `{ ...this.dailyTargets.value }`: in custom mode the spread of the
    -- custom record (absent keys stay absent), in equal mode all five keys.
    let base : Day → Option ℚ :=
      if c.modeCustom then c.customTargets else fun _ => some (c.weeklyTarget / 5)
    let adjustmentPerDay : ℚ := -difference / otherDays.length
    let newTargets : Day → Option ℚ := fun d =>
      if d = day then some newHours
      else if d ∈ otherDays then
        some (max (5 / 60) ((base d).getD 0 + adjustmentPerDay))
      else base d
    { modeCustom := true
      customTargets := newTargets
      weeklyTarget := c.weeklyTarget
      locked := c.locked }

/-- Total stored hours of the locked days (`lockedTotal` in the source). -/
def lockedTotal (c : DailyTargetsConfig) : ℚ :=
  ((WORKDAYS.filter fun d => c.locked d).map fun d => (c.customTargets d).getD 0).sum

/-- The unlocked workdays, in `WORKDAYS` order. -/
def unlockedDays (c : DailyTargetsConfig) : List Day :=
  WORKDAYS.filter fun d => !c.locked d

/-- Total stored hours of the unlocked days (`currentUnlockedTotal`). -/
def unlockedTotal (c : DailyTargetsConfig) : ℚ :=
  ((unlockedDays c).map fun d => (c.customTargets d).getD 0).sum

/-- Source `autoBalance()` (older revision, the only one defining it): switch to
custom mode first (`setMode('custom')`) when not already there, then rewrite
the unlocked days so that they consume `weeklyTarget - lockedTotal`: floor
state when that remainder is non-positive or below `n * 5/60`, else
proportional scaling of the current unlocked values (equal split when their
total is not positive), each result clamped below at `5/60`. -/
def autoBalance (c0 : DailyTargetsConfig) : DailyTargetsConfig :=
  let c := if !c0.modeCustom then setModeCustom c0 else c0
  let ct : Day → Option ℚ := c.customTargets
  if (unlockedDays c).isEmpty then c
  else
    let remainingTarget : ℚ := c.weeklyTarget - lockedTotal c
    let n : ℚ := (unlockedDays c).length
    let newTargets : Day → Option ℚ :=
      if remainingTarget ≤ 0 ∨ remainingTarget < n * (5 / 60) then
        fun d => if d ∈ unlockedDays c then some (5 / 60) else ct d
      else if 0 < unlockedTotal c then
        let scaleFactor : ℚ := remainingTarget / unlockedTotal c
        fun d =>
          if d ∈ unlockedDays c then some (max (5 / 60) ((ct d).getD 0 * scaleFactor))
          else ct d
      else
        let equalShare : ℚ := remainingTarget / n
        fun d => if d ∈ unlockedDays c then some (max (5 / 60) equalShare) else ct d
    { c with customTargets := newTargets }

/-- Source `setWeeklyTarget(hours)` (current revision, unconditional): store the new
weekly target; when the current custom total is positive, multiply every
truthy (nonzero) day value by `hours / currentTotal`. -/
def setWeeklyTarget (c : DailyTargetsConfig) (hours : ℚ) : DailyTargetsConfig :=
  let ct : Day → Option ℚ := c.customTargets
  let currentTotal : ℚ := (WORKDAYS.map fun d => (ct d).getD 0).sum
  if 0 < currentTotal then
    let scaleFactor : ℚ := hours / currentTotal
    { c with
      weeklyTarget := hours
      customTargets := fun d =>
        if (ct d).getD 0 ≠ 0 then some ((ct d).getD 0 * scaleFactor) else ct d }
  else { c with weeklyTarget := hours }

/-- The four preset names. -/
inductive Preset where
  | equal | frontLoaded | backLoaded | balanced
deriving DecidableEq, Repr

/-- The literal per-day preset patterns of `applyPreset` (the `equal` default
branch computes `weeklyTarget / WORKDAYS.length` for every day). -/
def presetTargets (c : DailyTargetsConfig) : Preset → Day → ℚ
  | .frontLoaded => fun d =>
      match d with
      | .monday => 8 | .tuesday => 8 | .wednesday => 7 | .thursday => 6
      | .friday => 517 / 100
  | .backLoaded => fun d =>
      match d with
      | .monday => 517 / 100 | .tuesday => 6 | .wednesday => 7 | .thursday => 8
      | .friday => 8
  | .balanced => fun d =>
      match d with
      | .monday => 7 | .tuesday => 7 | .wednesday => 617 / 100 | .thursday => 7
      | .friday => 7
  | .equal => fun _ => c.weeklyTarget / 5

/-- Total of the preset pattern restricted to unlocked days. -/
def unlockedPresetTotal (c : DailyTargetsConfig) (preset : Preset) : ℚ :=
  ((unlockedDays c).map (presetTargets c preset)).sum

/-- Source `applyPreset(preset)` (current revision): no-op when every day is locked;
otherwise floor state when `weeklyTarget - lockedTotal` is non-positive or
below `n * 5/60`, else the preset pattern restricted to the unlocked days is
scaled to consume the remainder (equal split if the restricted pattern total
is not positive), each value clamped below at `5/60`; locked days keep their
stored entries and the mode becomes `'custom'`. -/
def applyPreset (c : DailyTargetsConfig) (preset : Preset) : DailyTargetsConfig :=
  let ct : Day → Option ℚ := c.customTargets
  if (unlockedDays c).isEmpty then c
  else
    let pt : Day → ℚ := presetTargets c preset
    let remainingTarget : ℚ := c.weeklyTarget - lockedTotal c
    let n : ℚ := (unlockedDays c).length
    let newTargets : Day → Option ℚ :=
      if remainingTarget ≤ 0 ∨ remainingTarget < n * (5 / 60) then
        fun d => if d ∈ unlockedDays c then some (5 / 60) else ct d
      else if 0 < unlockedPresetTotal c preset then
        let scaleFactor : ℚ := remainingTarget / unlockedPresetTotal c preset
        fun d =>
          if d ∈ unlockedDays c then some (max (5 / 60) (pt d * scaleFactor))
          else ct d
      else
        let equalShare : ℚ := remainingTarget / n
        fun d => if d ∈ unlockedDays c then some (max (5 / 60) equalShare) else ct d
    { c with modeCustom := true, customTargets := newTargets }

/-- JavaScript `Math.round`: round half toward positive infinity. -/
def jsRound (x : ℚ) : ℤ := ⌊x + 1 / 2⌋

/-- One entry of `weeklyTimeData.dailyBreakdown` after the date has been
resolved to a day of week: `day = none` for a weekend date. -/
structure DayEntry where
  day : Option Day
  hours : ℚ

/-- The body of the `dailyBreakdown.forEach` callback of `setFromLoggedData`
(current revision): an entry with non-positive hours or a weekend date is
skipped, as is one whose workday is locked; otherwise that day is set to the
hours rounded to the nearest `1/12` increment and clamped below at `5/60`. -/
def logStep (c : DailyTargetsConfig) (ct : Day → Option ℚ) (e : DayEntry) :
    Day → Option ℚ :=
  if e.hours ≤ 0 then ct
  else
    match e.day with
    | none => ct
    | some dayName =>
      if c.locked dayName then ct
      else fun d =>
        if d = dayName then some (max (5 / 60) ((jsRound (e.hours * 12) : ℚ) / 12))
        else ct d

/-- Source `setFromLoggedData(weeklyTimeData)` (current revision): fold `logStep`
over the breakdown entries, starting from the stored custom record; every
day not written keeps its stored value. -/
def setFromLoggedData (c : DailyTargetsConfig) (dailyBreakdown : List DayEntry) :
    DailyTargetsConfig :=
  { c with customTargets := dailyBreakdown.foldl (logStep c) c.customTargets }

/-- Source `toggleLock(day)`: flip the day's lock flag, touching nothing else. -/
def toggleLock (c : DailyTargetsConfig) (d : Day) : DailyTargetsConfig :=
  { c with locked := fun d' => if d' = d then !c.locked d' else c.locked d' }

/-! ## Interval aggregation (`awServerApi.ts`) -/

/-- An active period `{ start, end, duration }`; `end` is a reserved word in
Lean, so the field is named `stop`.  Times are in seconds. -/
structure Period where
  start : ℚ
  stop : ℚ
  duration : ℚ
deriving DecidableEq, Repr

/-- One step of the merge loop of `getDayTimelineData`, with the accumulator
kept in reverse order (the source mutates the last pushed element; here the
head of the reversed accumulator): a period starting within 1 second of the
running period's end extends it, anything else is pushed. -/
def mergeStep (acc : List Period) (period : Period) : List Period :=
  match acc with
  | [] => [period]
  | lastPeriod :: rest =>
    if period.start ≤ lastPeriod.stop + 1 then
      let mergedEnd : ℚ :=
        if lastPeriod.stop < period.stop then period.stop else lastPeriod.stop
      { start := lastPeriod.start, stop := mergedEnd,
        duration := mergedEnd - lastPeriod.start } :: rest
    else period :: lastPeriod :: rest

/-- The merge loop over the sorted active periods, producing `mergedPeriods`
in chronological order. -/
def mergePeriods (activePeriods : List Period) : List Period :=
  (activePeriods.foldl mergeStep []).reverse

/-- Source `totalActiveSeconds`: sum of the merged periods' durations. -/
def totalActiveSeconds (mergedPeriods : List Period) : ℚ :=
  (mergedPeriods.map Period.duration).sum

/-- A timeline event of `getDayTimelineData`. -/
inductive SpanType where
  | active | inactive
deriving DecidableEq, Repr

/-- One element of the `events` array returned by `getDayTimelineData`. -/
structure TimelineEvent where
  start : ℚ
  stop : ℚ
  duration : ℚ
  type : SpanType
deriving DecidableEq, Repr

/-- The active timeline event pushed for a merged period. -/
def activeEvent (p : Period) : TimelineEvent :=
  { start := p.start, stop := p.stop, duration := p.duration, type := .active }

/-- The synthesized inactive event filling the gap `[cur, s]`. -/
def inactiveEvent (cur s : ℚ) : TimelineEvent :=
  { start := cur, stop := s, duration := s - cur, type := .inactive }

/-- The timeline construction loop: starting from `currentTime`, insert an
inactive event for each gap before the next active period, then the active
period itself; also accumulates `totalInactiveSeconds`. -/
def timelineFrom (currentTime : ℚ) : List Period → List TimelineEvent × ℚ
  | [] => ([], 0)
  | p :: rest =>
    let tail := timelineFrom p.stop rest
    if currentTime < p.start then
      (inactiveEvent currentTime p.start :: activeEvent p :: tail.1,
       (p.start - currentTime) + tail.2)
    else (activeEvent p :: tail.1, tail.2)

/-- The combined timeline of `getDayTimelineData` for a merged period list:
`currentTime` starts at the first period's start (`firstActiveTime`), so no
inactive event precedes the first activity and none follows the last. -/
def dayTimeline (mergedPeriods : List Period) : List TimelineEvent × ℚ :=
  match mergedPeriods with
  | [] => ([], 0)
  | p :: _ => timelineFrom p.start mergedPeriods

/-- Sum of the interior gaps between consecutive periods. -/
def gapSum : List Period → ℚ
  | [] => 0
  | [_] => 0
  | p :: q :: rest => (q.start - p.stop) + gapSum (q :: rest)

/-- Source `Math.round(x * 100) / 100`: rounding to two decimals. -/
def round2 (x : ℚ) : ℚ := (jsRound (x * 100) : ℚ) / 100

/-- Source `getWeeklyTimeData`: the returned `totalHours`, from the seven per-day
`totalActiveSeconds` values — the unrounded day hours are accumulated and the
sum is rounded once. -/
def weeklyTotalHours (daySeconds : List ℚ) : ℚ :=
  round2 ((daySeconds.map fun s => s / 3600).sum)

/-- Source `getWeeklyTimeData`: the `hours` fields of `dailyBreakdown`, each day
rounded independently. -/
def weeklyDailyHours (daySeconds : List ℚ) : List ℚ :=
  daySeconds.map fun s => round2 (s / 3600)

/-! ## Theorems -/

/-- Reading `dailyTargets` of a configuration in custom mode yields the stored record
with default 0. -/
theorem dailyTargets_mk (ct : Day → Option ℚ) (w : ℚ) (lk : Day → Bool) :
    dailyTargets ⟨true, ct, w, lk⟩ = fun d => (ct d).getD 0 := by
  simp [dailyTargets]

/-- C10: `toggleLock(d)` touches only `d`'s lock flag: every stored custom
target, every displayed daily target and the weekly target are unchanged, the
lock flags obey the pointwise flip equation, and toggling twice restores every
lock flag (in particular `isLocked(d)`), so `toggleLock` is an involution on
the observable lock state. -/
theorem toggleLock_frame_involution (c : DailyTargetsConfig) (d : Day) :
    (∀ d', (toggleLock c d).customTargets d' = c.customTargets d') ∧
    (∀ d', dailyTargets (toggleLock c d) d' = dailyTargets c d') ∧
    (toggleLock c d).weeklyTarget = c.weeklyTarget ∧
    (∀ d', isLocked (toggleLock c d) d' =
      if d' = d then !isLocked c d' else isLocked c d') ∧
    (∀ d', isLocked (toggleLock (toggleLock c d) d) d' = isLocked c d') := by
  refine ⟨fun d' => rfl, fun d' => rfl, rfl, fun d' => rfl, fun d' => ?_⟩
  by_cases h : d' = d <;> simp [toggleLock, isLocked, h]

/-- C7: the merger fuses two periods exactly when the second starts no more
than 1 second after the running period's end, the fused period keeping the
first start, taking the later of the two ends and recomputing its duration;
concretely, a 0.5-second gap (10:00–10:05 and 10:05:00.5–10:10, as seconds of
day) fuses into one 10:00–10:10 period while a 2-second gap stays two
periods. -/
theorem mergePeriods_pair (a b : Period) :
    (mergePeriods [a, b] =
      if b.start ≤ a.stop + 1 then
        [{ start := a.start,
           stop := if a.stop < b.stop then b.stop else a.stop,
           duration := (if a.stop < b.stop then b.stop else a.stop) - a.start }]
      else [a, b]) ∧
    mergePeriods [⟨36000, 36300, 300⟩, ⟨36300 + 1/2, 36600, 599/2⟩] =
      [⟨36000, 36600, 600⟩] ∧
    mergePeriods [⟨36000, 36300, 300⟩, ⟨36302, 36600, 298⟩] =
      [⟨36000, 36300, 300⟩, ⟨36302, 36600, 298⟩] := by
  refine ⟨?_, by norm_num [mergePeriods, mergeStep], by norm_num [mergePeriods, mergeStep]⟩
  by_cases h : b.start ≤ a.stop + 1 <;>
    simp [mergePeriods, mergeStep, h]

/-- The configuration used to refute C2's validation claim: all five days
stored at 1 hour, weekly target 5, nothing locked. -/
def cexC2 : DailyTargetsConfig :=
  { modeCustom := true
    customTargets := fun _ => some 1
    weeklyTarget := 5
    locked := fun _ => false }

/-- C2, counterexample: `setWeeklyTarget(-1)` is not rejected — the weekly
target is mutated to `-1` even though the argument is non-positive. -/
theorem setWeeklyTarget_cex :
    (-1 : ℚ) ≤ 0 ∧ (setWeeklyTarget cexC2 (-1)).weeklyTarget ≠ cexC2.weeklyTarget := by
  norm_num [setWeeklyTarget, cexC2, WORKDAYS]

/-- C2, amended: `setWeeklyTarget(hours)` performs no input validation at all.
For every argument, non-positive included, it stores `hours` as the weekly
target and leaves the lock flags unchanged; whenever the current custom total
is positive the rescale makes the stored day values sum exactly to `hours`. -/
theorem setWeeklyTarget_no_validation (c : DailyTargetsConfig) (hours : ℚ) :
    (setWeeklyTarget c hours).weeklyTarget = hours ∧
    (∀ d, (setWeeklyTarget c hours).locked d = c.locked d) ∧
    (0 < (WORKDAYS.map fun d => (c.customTargets d).getD 0).sum →
      (WORKDAYS.map fun d => ((setWeeklyTarget c hours).customTargets d).getD 0).sum
        = hours) := by
  by_cases h : 0 < (WORKDAYS.map fun d => (c.customTargets d).getD 0).sum
  · refine ⟨by simp [setWeeklyTarget, h], fun d => by simp [setWeeklyTarget, h], fun _ => ?_⟩
    have hpt : ∀ d, ((setWeeklyTarget c hours).customTargets d).getD 0 =
        (c.customTargets d).getD 0 *
          (hours / (WORKDAYS.map fun d => (c.customTargets d).getD 0).sum) := by
      intro d
      by_cases hz : (c.customTargets d).getD 0 = 0
      · simp [setWeeklyTarget, h, hz]
      · simp [setWeeklyTarget, h, hz]
    simp only [hpt]
    rw [List.sum_map_mul_right, mul_comm, div_mul_cancel₀ hours h.ne']
  · exact ⟨by simp [setWeeklyTarget, h], fun d => by simp [setWeeklyTarget, h],
      fun hc => absurd hc h⟩

/-- C2, witness for the amended theorem at a concrete configuration. -/
theorem setWeeklyTarget_no_validation_witness :
    (WORKDAYS.map fun d => ((setWeeklyTarget cexC2 40).customTargets d).getD 0).sum
      = 40 :=
  (setWeeklyTarget_no_validation cexC2 40).2.2 (by norm_num [cexC2, WORKDAYS])

/-- JavaScript `Math.round` (half up) differs from its argument by at most `1/2`. -/
theorem jsRound_err (x : ℚ) : |(jsRound x : ℚ) - x| ≤ 1 / 2 := by
  have h1 : ((⌊x + 1 / 2⌋ : ℤ) : ℚ) ≤ x + 1 / 2 := Int.floor_le _
  have h2 : x + 1 / 2 < (⌊x + 1 / 2⌋ : ℤ) + 1 := Int.lt_floor_add_one _
  show |(⌊x + 1 / 2⌋ : ℚ) - x| ≤ 1 / 2
  rw [abs_le]
  constructor <;> linarith

/-- Rounding to two decimals moves a value by at most `1/200`. -/
theorem round2_err (x : ℚ) : |round2 x - x| ≤ 1 / 200 := by
  have h := jsRound_err (x * 100)
  have hx : round2 x - x = ((jsRound (x * 100) : ℚ) - x * 100) / 100 := by
    rw [round2]; ring
  rw [hx, abs_div, abs_of_pos (by norm_num : (0 : ℚ) < 100)]
  linarith

/-- The independently rounded daily hours drift from the unrounded day hours
by at most `length / 200` in total. -/
theorem weeklyDailyHours_err (l : List ℚ) :
    |(weeklyDailyHours l).sum - (l.map fun s => s / 3600).sum| ≤ l.length / 200 := by
  induction l with
  | nil => simp [weeklyDailyHours]
  | cons a t ih =>
    have h1 := round2_err (a / 3600)
    have h2 := abs_add (round2 (a / 3600) - a / 3600)
      ((t.map fun s => round2 (s / 3600)).sum - (t.map fun s => s / 3600).sum)
    simp only [weeklyDailyHours, List.map_cons, List.sum_cons, List.length_cons] at ih ⊢
    have h3 : round2 (a / 3600) + (t.map fun s => round2 (s / 3600)).sum -
        (a / 3600 + (t.map fun s => s / 3600).sum) =
        (round2 (a / 3600) - a / 3600) +
        ((t.map fun s => round2 (s / 3600)).sum - (t.map fun s => s / 3600).sum) := by
      ring
    rw [h3]
    push_cast
    linarith

/-- C3, counterexample: seven days of exactly 18 active seconds each (18 is a
reachable `totalActiveSeconds`, e.g. from a single 18-second merged period).
Each daily entry rounds `0.005 h` up to `0.01 h`, summing to `0.07`, while the
once-rounded total is `round2(0.035) = 0.04`: the difference is `0.03`,
exceeding the claimed `0.01` tolerance. -/
theorem weeklyTotalHours_cex :
    totalActiveSeconds (mergePeriods [⟨0, 18, 18⟩]) = 18 ∧
    ¬ |weeklyTotalHours [18, 18, 18, 18, 18, 18, 18] -
        (weeklyDailyHours [18, 18, 18, 18, 18, 18, 18]).sum| ≤ 1 / 100 := by
  constructor
  · norm_num [totalActiveSeconds, mergePeriods, mergeStep]
  · have h1 : weeklyTotalHours [18, 18, 18, 18, 18, 18, 18] = 4 / 100 := by
      norm_num [weeklyTotalHours, round2, jsRound]
    have h2 : (weeklyDailyHours [18, 18, 18, 18, 18, 18, 18]).sum = 7 / 100 := by
      norm_num [weeklyDailyHours, round2, jsRound]
    rw [h1, h2, show (4 : ℚ) / 100 - 7 / 100 = -(3 / 100) by norm_num, abs_neg,
      abs_of_pos (by norm_num : (0 : ℚ) < 3 / 100)]
    norm_num

/-- C3, amended: for every 7-day window the once-rounded `totalHours` and the
sum of the seven independently rounded `dailyBreakdown[].hours` agree within
`0.04` (not `0.01`): one two-decimal rounding contributes at most `0.005`
error and the seven daily roundings at most `0.035`. -/
theorem weeklyTotalHours_tolerance (daySeconds : List ℚ)
    (h7 : daySeconds.length = 7) :
    |weeklyTotalHours daySeconds - (weeklyDailyHours daySeconds).sum| ≤ 1 / 25 := by
  have h1 := round2_err ((daySeconds.map fun s => s / 3600).sum)
  have h2 := weeklyDailyHours_err daySeconds
  rw [h7] at h2
  have h3 := abs_add (round2 ((daySeconds.map fun s => s / 3600).sum) -
      (daySeconds.map fun s => s / 3600).sum)
    ((daySeconds.map fun s => s / 3600).sum - (weeklyDailyHours daySeconds).sum)
  have h4 : round2 ((daySeconds.map fun s => s / 3600).sum) -
        (daySeconds.map fun s => s / 3600).sum +
        ((daySeconds.map fun s => s / 3600).sum - (weeklyDailyHours daySeconds).sum) =
      round2 ((daySeconds.map fun s => s / 3600).sum) -
        (weeklyDailyHours daySeconds).sum := by
    ring
  rw [h4] at h3
  have h5 := abs_sub_comm ((daySeconds.map fun s => s / 3600).sum)
    ((weeklyDailyHours daySeconds).sum)
  rw [weeklyTotalHours]
  push_cast at h2
  linarith

/-- C3, witness for the amended tolerance at a concrete 7-day window. -/
theorem weeklyTotalHours_tolerance_witness :
    |weeklyTotalHours [0, 0, 0, 0, 0, 0, 0] -
        (weeklyDailyHours [0, 0, 0, 0, 0, 0, 0]).sum| ≤ 1 / 25 :=
  weeklyTotalHours_tolerance [0, 0, 0, 0, 0, 0, 0] rfl

/-- The configuration used to refute C1's sum preservation: the four days
other than friday already sit at the 5-minute floor, so lowering them cannot
absorb an increase of friday. -/
def cexC1 : DailyTargetsConfig :=
  { modeCustom := true
    customTargets := fun d => match d with
      | .friday => some 1
      | _ => some (1 / 12)
    weeklyTarget := 3417 / 100
    locked := fun _ => false }

/-- C1, counterexample: with nothing locked, `updateDayTarget('friday', 2)`
raises friday from 1 to 2 while the other four days, already at the `1/12`
floor, are clamped and absorb nothing: the weekly sum grows by a full hour,
far beyond the claimed `±0.01`. -/
theorem updateDayTarget_cex :
    cexC1.locked = (fun _ => false) ∧
    ¬ |weeklyTotal (updateDayTarget cexC1 .friday 2) - weeklyTotal cexC1| ≤ 1 / 100 := by
  refine ⟨rfl, ?_⟩
  have hf : (WORKDAYS.filter fun d => !(d == Day.friday) && !cexC1.locked d) =
      [Day.monday, Day.tuesday, Day.wednesday, Day.thursday] := by decide
  have h1 : weeklyTotal cexC1 = 4 / 3 := by
    norm_num [weeklyTotal, sumDays, dailyTargets, cexC1, WORKDAYS]
  have h2 : weeklyTotal (updateDayTarget cexC1 .friday 2) = 7 / 3 := by
    simp only [updateDayTarget, hf]
    simp [weeklyTotal, sumDays, dailyTargets, cexC1, WORKDAYS]
    norm_num [max_def]
  rw [h1, h2, show (7 : ℚ) / 3 - 4 / 3 = 1 by norm_num, abs_one]
  norm_num

/-- C1, amended: `updateDayTarget('friday', x)` with nothing locked preserves
the weekly sum exactly — provided the even redistribution does not hit the
5-minute floor on any of the four other days; when it does (the
counterexample), the sum moves by the unabsorbed clamped amount. -/
theorem updateDayTarget_sum_preserved (c : DailyTargetsConfig) (x : ℚ)
    (hunlocked : ∀ d, c.locked d = false)
    (hfloor : ∀ d, d ≠ Day.friday →
      5 / 60 ≤ dailyTargets c d - (x - dailyTargets c Day.friday) / 4) :
    weeklyTotal (updateDayTarget c Day.friday x) = weeklyTotal c := by
  have hf2 : (WORKDAYS.filter fun d => !(d == Day.friday)) =
      [Day.monday, Day.tuesday, Day.wednesday, Day.thursday] := by decide
  have hb : ∀ d, ((if c.modeCustom then c.customTargets
      else fun _ => some (c.weeklyTarget / 5)) d).getD 0 = dailyTargets c d := by
    intro d
    by_cases h : c.modeCustom <;> simp [dailyTargets, getEqualDistribution, h]
  have hval : ∀ d, dailyTargets (updateDayTarget c Day.friday x) d =
      if d = Day.friday then x
      else dailyTargets c d - (x - dailyTargets c Day.friday) / 4 := by
    intro d
    by_cases hd : d = Day.friday
    · simp [updateDayTarget, hunlocked, dailyTargets_mk, hd]
    · have hdm : d = Day.monday ∨ d = Day.tuesday ∨ d = Day.wednesday ∨
          d = Day.thursday := by
        cases d <;> simp_all
      have hge : 5 / 60 ≤ dailyTargets c d + (dailyTargets c Day.friday - x) / 4 := by
        have := hfloor d hd
        linarith
      simp [updateDayTarget, hunlocked, dailyTargets_mk, hd, hdm, hb, hf2]
      rw [max_eq_right hge]
      ring
  simp [weeklyTotal, sumDays, WORKDAYS, hval]
  ring

/-- The concrete configuration for C1's witness: one hour on every day. -/
def witC1 : DailyTargetsConfig :=
  { modeCustom := true
    customTargets := fun _ => some 1
    weeklyTarget := 5
    locked := fun _ => false }

/-- C1, witness: at `witC1`, raising friday to 2 keeps the weekly sum at 5. -/
theorem updateDayTarget_sum_preserved_witness :
    weeklyTotal (updateDayTarget witC1 Day.friday 2) = weeklyTotal witC1 :=
  updateDayTarget_sum_preserved witC1 2 (fun _ => rfl)
    (by intro d hd; norm_num [dailyTargets, witC1])

/-- Splitting a workday sum into its locked and unlocked parts. -/
theorem sum_map_filter_split (l : List Day) (p : Day → Bool) (f : Day → ℚ) :
    (l.map f).sum =
      ((l.filter fun d => p d).map f).sum + ((l.filter fun d => !p d).map f).sum := by
  induction l with
  | nil => simp
  | cons a t ih =>
    by_cases h : p a <;> simp [List.filter_cons, h] <;> linarith

/-- Summing a constant over a list of days. -/
theorem sum_map_const_days (l : List Day) (k : ℚ) :
    (l.map fun _ => k).sum = l.length * k := by
  induction l with
  | nil => simp
  | cons a t ih =>
    simp [ih]
    ring

/-- Pointwise description of the custom record after `autoBalance` in custom
mode with at least one unlocked day: locked days keep their stored entries,
unlocked days get the floor / scaled / equal-share value of the branch
taken. -/
theorem autoBalance_targets (c : DailyTargetsConfig)
    (hmode : c.modeCustom = true) (hemp : ¬(unlockedDays c).isEmpty = true) :
    ∀ d, (autoBalance c).customTargets d =
      if d ∈ unlockedDays c then
        (if c.weeklyTarget - lockedTotal c ≤ 0 ∨
            c.weeklyTarget - lockedTotal c <
              ((unlockedDays c).length : ℚ) * (5 / 60) then
          some (5 / 60)
        else if 0 < unlockedTotal c then
          some (max (5 / 60) ((c.customTargets d).getD 0 *
            ((c.weeklyTarget - lockedTotal c) / unlockedTotal c)))
        else
          some (max (5 / 60)
            ((c.weeklyTarget - lockedTotal c) / ((unlockedDays c).length : ℚ))))
      else c.customTargets d := by
  intro d
  rw [autoBalance]
  simp only [hmode, Bool.not_true, Bool.false_eq_true, if_false]
  rw [if_neg hemp]
  by_cases hA : c.weeklyTarget - lockedTotal c ≤ 0 ∨
      c.weeklyTarget - lockedTotal c < ((unlockedDays c).length : ℚ) * (5 / 60)
  · rw [if_pos hA]
    dsimp only
    by_cases hd : d ∈ unlockedDays c
    · rw [if_pos hd, if_pos hd, if_pos hA]
    · rw [if_neg hd, if_neg hd]
  · rw [if_neg hA]
    by_cases hB : 0 < unlockedTotal c
    · rw [if_pos hB]
      dsimp only
      by_cases hd : d ∈ unlockedDays c
      · rw [if_pos hd, if_pos hd, if_neg hA, if_pos hB]
      · rw [if_neg hd, if_neg hd]
    · rw [if_neg hB]
      dsimp only
      by_cases hd : d ∈ unlockedDays c
      · rw [if_pos hd, if_pos hd, if_neg hA, if_neg hB]
      · rw [if_neg hd, if_neg hd]

/-- The configuration used to refute C4: monday locked at 4 of a weekly
target of 5, tuesday holding all remaining unlocked weight and the other
three unlocked days at 0. -/
def cexC4 : DailyTargetsConfig :=
  { modeCustom := true
    customTargets := fun d => match d with
      | .monday => some 4
      | .tuesday => some 1
      | _ => some 0
    weeklyTarget := 5
    locked := fun d => d == .monday }

/-- C4, counterexample: at `cexC4` the remaining target (1 hour) is feasible
(not the documented floor case), monday is locked and indeed untouched, yet
`autoBalance` clamps wednesday–friday up from 0 to the 5-minute floor, so the
week sums to 5.25 instead of the weekly target 5 — off by 0.25, not
within 0.01. -/
theorem autoBalance_cex :
    cexC4.locked .monday = true ∧
    dailyTargets (autoBalance cexC4) .monday = dailyTargets cexC4 .monday ∧
    ¬(cexC4.weeklyTarget - lockedTotal cexC4 ≤ 0 ∨
      cexC4.weeklyTarget - lockedTotal cexC4 <
        ((unlockedDays cexC4).length : ℚ) * (5 / 60)) ∧
    ¬ |weeklyTotal (autoBalance cexC4) - cexC4.weeklyTarget| ≤ 1 / 100 := by
  have hfl : (WORKDAYS.filter fun d => cexC4.locked d) = [Day.monday] := by decide
  have hlt : lockedTotal cexC4 = 4 := by
    rw [lockedTotal, hfl]
    norm_num [cexC4]
  have hud : unlockedDays cexC4 =
      [Day.tuesday, Day.wednesday, Day.thursday, Day.friday] := by decide
  have hut : unlockedTotal cexC4 = 1 := by
    rw [unlockedTotal, hud]
    norm_num [cexC4]
  have hv := autoBalance_targets cexC4 rfl (by decide)
  have hfeas : ¬(cexC4.weeklyTarget - lockedTotal cexC4 ≤ 0 ∨
      cexC4.weeklyTarget - lockedTotal cexC4 <
        ((unlockedDays cexC4).length : ℚ) * (5 / 60)) := by
    rw [hlt, hud, show cexC4.weeklyTarget = 5 from rfl]
    norm_num
  have hmon : (autoBalance cexC4).customTargets Day.monday = some 4 := by
    rw [hv Day.monday, hud, if_neg (by decide)]
    rfl
  have hB : 0 < unlockedTotal cexC4 := by rw [hut]; norm_num
  have htue : (autoBalance cexC4).customTargets Day.tuesday = some 1 := by
    rw [hv Day.tuesday, if_pos (by rw [hud]; decide), if_neg hfeas, if_pos hB,
      hlt, hut, show cexC4.weeklyTarget = 5 from rfl,
      show (cexC4.customTargets Day.tuesday).getD 0 = 1 from rfl]
    norm_num [max_def]
  have hrest : ∀ d, d = Day.wednesday ∨ d = Day.thursday ∨ d = Day.friday →
      (autoBalance cexC4).customTargets d = some (5 / 60) := by
    intro d hd
    have hdm : d ∈ unlockedDays cexC4 := by
      rw [hud]
      rcases hd with h | h | h <;> rw [h] <;> decide
    have hz : (cexC4.customTargets d).getD 0 = 0 := by
      rcases hd with h | h | h <;> rw [h] <;> rfl
    rw [hv d, if_pos hdm, if_neg hfeas, if_pos hB, hz, hlt, hut,
      show cexC4.weeklyTarget = 5 from rfl]
    norm_num [max_def]
  have hmode' : (autoBalance cexC4).modeCustom = true := rfl
  have hdisp : ∀ d, dailyTargets (autoBalance cexC4) d =
      ((autoBalance cexC4).customTargets d).getD 0 := by
    intro d
    simp [dailyTargets, hmode']
  have hw : weeklyTotal (autoBalance cexC4) = 21 / 4 := by
    rw [weeklyTotal, sumDays, WORKDAYS]
    simp only [List.map, List.sum_cons, List.sum_nil, hdisp, hmon, htue,
      hrest Day.wednesday (by simp), hrest Day.thursday (by simp),
      hrest Day.friday (by simp)]
    norm_num
  refine ⟨rfl, ?_, hfeas, ?_⟩
  · rw [hdisp Day.monday, hmon]
    simp [dailyTargets, cexC4]
  · rw [hw, show cexC4.weeklyTarget = 5 from rfl,
      show (21 : ℚ) / 4 - 5 = 1 / 4 by norm_num,
      abs_of_pos (by norm_num : (0 : ℚ) < 1 / 4)]
    norm_num

/-- C4, amended: in custom mode with monday locked, `autoBalance` leaves
monday's stored entry and displayed target unchanged; in the documented
shortfall case every unlocked day lands exactly on the 5-minute floor; and
when the remaining target is feasible the week sums exactly to
`weeklyTargetHours` — provided no unlocked day's proportionally scaled value
falls below the floor (the counterexample shows the sum overshoots when the
clamp fires). -/
theorem autoBalance_locked_monday (c : DailyTargetsConfig)
    (hmode : c.modeCustom = true) (hmon : c.locked Day.monday = true) :
    ((autoBalance c).customTargets Day.monday = c.customTargets Day.monday) ∧
    (dailyTargets (autoBalance c) Day.monday = dailyTargets c Day.monday) ∧
    (¬(unlockedDays c).isEmpty = true →
      (c.weeklyTarget - lockedTotal c ≤ 0 ∨
       c.weeklyTarget - lockedTotal c <
         ((unlockedDays c).length : ℚ) * (5 / 60)) →
      ∀ d ∈ unlockedDays c, dailyTargets (autoBalance c) d = 5 / 60) ∧
    (¬(unlockedDays c).isEmpty = true →
      ¬(c.weeklyTarget - lockedTotal c ≤ 0 ∨
        c.weeklyTarget - lockedTotal c <
          ((unlockedDays c).length : ℚ) * (5 / 60)) →
      (0 < unlockedTotal c →
        ∀ d ∈ unlockedDays c, 5 / 60 ≤ (c.customTargets d).getD 0 *
          ((c.weeklyTarget - lockedTotal c) / unlockedTotal c)) →
      weeklyTotal (autoBalance c) = c.weeklyTarget) := by
  have hmonmem : Day.monday ∉ unlockedDays c := by
    simp [unlockedDays, List.mem_filter, hmon]
  by_cases hemp : (unlockedDays c).isEmpty = true
  · have hres : autoBalance c = c := by
      simp [autoBalance, hmode, hemp]
    exact ⟨by rw [hres], by rw [hres], fun h => absurd hemp h,
      fun h => absurd hemp h⟩
  · have hv := autoBalance_targets c hmode hemp
    have hmode' : (autoBalance c).modeCustom = true := by
      simp [autoBalance, hmode, hemp]
    have hdisp : ∀ d, dailyTargets (autoBalance c) d =
        ((autoBalance c).customTargets d).getD 0 := by
      intro d
      simp [dailyTargets, hmode']
    refine ⟨by rw [hv Day.monday, if_neg hmonmem], ?_, ?_, ?_⟩
    · rw [hdisp Day.monday, hv Day.monday, if_neg hmonmem, dailyTargets, hmode]
      simp
    · intro _ hinf d hd
      rw [hdisp d, hv d, if_pos hd, if_pos hinf]
      simp
    · intro _ hfeas hclamp
      have hne : unlockedDays c ≠ [] := by
        intro h
        exact hemp (by simp [h])
      have hnpos : (0 : ℚ) < ((unlockedDays c).length : ℚ) := by
        exact_mod_cast List.length_pos_iff_ne_nil.mpr hne
      have hsplit := sum_map_filter_split WORKDAYS (fun d => c.locked d)
        (fun d => ((autoBalance c).customTargets d).getD 0)
      have hlockedpart :
          ((WORKDAYS.filter fun d => c.locked d).map
            fun d => ((autoBalance c).customTargets d).getD 0).sum = lockedTotal c := by
        rw [lockedTotal]
        congr 1
        apply List.map_congr_left
        intro d hdl
        rw [hv d, if_neg]
        intro hmem
        have hmem' : d ∈ WORKDAYS.filter fun d => !c.locked d := hmem
        have h1 : c.locked d = true := (List.mem_filter.mp hdl).2
        have h2 : (!c.locked d) = true := (List.mem_filter.mp hmem').2
        rw [h1] at h2
        simp at h2
      have hremsum :
          ((WORKDAYS.filter fun d => !c.locked d).map
            fun d => ((autoBalance c).customTargets d).getD 0).sum =
            c.weeklyTarget - lockedTotal c := by
        by_cases hB : 0 < unlockedTotal c
        · have hcong : ((unlockedDays c).map
              fun d => ((autoBalance c).customTargets d).getD 0) =
              ((unlockedDays c).map fun d => (c.customTargets d).getD 0 *
                ((c.weeklyTarget - lockedTotal c) / unlockedTotal c)) := by
            apply List.map_congr_left
            intro d hd
            rw [hv d, if_pos hd, if_neg hfeas, if_pos hB]
            simp [max_eq_right (hclamp hB d hd)]
          rw [show (WORKDAYS.filter fun d => !c.locked d) = unlockedDays c from rfl,
            hcong, List.sum_map_mul_right]
          rw [show ((unlockedDays c).map fun d => (c.customTargets d).getD 0).sum
              = unlockedTotal c from rfl]
          rw [mul_comm, div_mul_cancel₀ _ hB.ne']
        · have hge : 5 / 60 ≤ (c.weeklyTarget - lockedTotal c) /
              ((unlockedDays c).length : ℚ) := by
            push_neg at hfeas
            rw [le_div_iff₀ hnpos]
            calc (5 : ℚ) / 60 * ((unlockedDays c).length : ℚ)
                = ((unlockedDays c).length : ℚ) * (5 / 60) := by ring
              _ ≤ c.weeklyTarget - lockedTotal c := hfeas.2
          have hcong : ((unlockedDays c).map
              fun d => ((autoBalance c).customTargets d).getD 0) =
              ((unlockedDays c).map fun _ =>
                (c.weeklyTarget - lockedTotal c) / ((unlockedDays c).length : ℚ)) := by
            apply List.map_congr_left
            intro d hd
            rw [hv d, if_pos hd, if_neg hfeas, if_neg hB]
            simp [max_eq_right hge]
          rw [show (WORKDAYS.filter fun d => !c.locked d) = unlockedDays c from rfl,
            hcong, sum_map_const_days, mul_comm, div_mul_cancel₀ _ hnpos.ne']
      have hweekly : weeklyTotal (autoBalance c) =
          (WORKDAYS.map fun d => ((autoBalance c).customTargets d).getD 0).sum := by
        rw [weeklyTotal, sumDays]
        congr 1
        exact List.map_congr_left fun d _ => hdisp d
      rw [hweekly, hsplit, hlockedpart, hremsum]
      ring

/-- The concrete configuration for C4's witness: monday locked at 10 hours,
the four unlocked days at 6 hours each, weekly target 34. -/
def witC4 : DailyTargetsConfig :=
  { modeCustom := true
    customTargets := fun d => match d with
      | .monday => some 10
      | _ => some 6
    weeklyTarget := 34
    locked := fun d => d == .monday }

/-- C4, witness: at `witC4` the proportional rescale hits no floor, monday's
entry survives and the week sums exactly to the weekly target. -/
theorem autoBalance_locked_monday_witness :
    (autoBalance witC4).customTargets Day.monday = witC4.customTargets Day.monday ∧
    weeklyTotal (autoBalance witC4) = witC4.weeklyTarget := by
  have hlt : lockedTotal witC4 = 10 := by
    rw [lockedTotal,
      show (WORKDAYS.filter fun d => witC4.locked d) = [Day.monday] from by decide]
    norm_num [witC4]
  have hud : unlockedDays witC4 =
      [Day.tuesday, Day.wednesday, Day.thursday, Day.friday] := by decide
  have hut : unlockedTotal witC4 = 24 := by
    rw [unlockedTotal, hud]
    norm_num [witC4]
  have h := autoBalance_locked_monday witC4 rfl rfl
  refine ⟨h.1, h.2.2.2 (by decide) ?_ ?_⟩
  · rw [hlt, hud, show witC4.weeklyTarget = 34 from rfl]
    norm_num
  · intro _ d hd
    rw [hud] at hd
    rw [hlt, hut, show witC4.weeklyTarget = 34 from rfl]
    fin_cases hd <;> norm_num [witC4]

/-- Pointwise description of the custom record after `applyPreset` with at
least one unlocked day: locked days keep their stored entries, unlocked days
become the floor / scaled-preset / equal-share value of the branch taken. -/
theorem applyPreset_targets (c : DailyTargetsConfig) (p : Preset)
    (hemp : ¬(unlockedDays c).isEmpty = true) :
    ∀ d, (applyPreset c p).customTargets d =
      if d ∈ unlockedDays c then
        (if c.weeklyTarget - lockedTotal c ≤ 0 ∨
            c.weeklyTarget - lockedTotal c <
              ((unlockedDays c).length : ℚ) * (5 / 60) then
          some (5 / 60)
        else if 0 < unlockedPresetTotal c p then
          some (max (5 / 60) (presetTargets c p d *
            ((c.weeklyTarget - lockedTotal c) / unlockedPresetTotal c p)))
        else
          some (max (5 / 60)
            ((c.weeklyTarget - lockedTotal c) / ((unlockedDays c).length : ℚ))))
      else c.customTargets d := by
  intro d
  rw [applyPreset]
  dsimp only
  rw [if_neg hemp]
  by_cases hA : c.weeklyTarget - lockedTotal c ≤ 0 ∨
      c.weeklyTarget - lockedTotal c < ((unlockedDays c).length : ℚ) * (5 / 60)
  · rw [if_pos hA]
    dsimp only
    by_cases hd : d ∈ unlockedDays c
    · rw [if_pos hd, if_pos hd, if_pos hA]
    · rw [if_neg hd, if_neg hd]
  · rw [if_neg hA]
    by_cases hB : 0 < unlockedPresetTotal c p
    · rw [if_pos hB]
      dsimp only
      by_cases hd : d ∈ unlockedDays c
      · rw [if_pos hd, if_pos hd, if_neg hA, if_pos hB]
      · rw [if_neg hd, if_neg hd]
    · rw [if_neg hB]
      dsimp only
      by_cases hd : d ∈ unlockedDays c
      · rw [if_pos hd, if_pos hd, if_neg hA, if_neg hB]
      · rw [if_neg hd, if_neg hd]

/-- C5: `applyPreset` never moves a locked day's stored target, for every
preset and every configuration; and when the remaining target is feasible,
the restricted preset total is positive and no scaled value falls below the
5-minute floor, the unlocked days' new values sum exactly to
`weeklyTargetHours - lockedTotal` (the preset shape scaled to consume the
remainder, as the claim's floor proviso allows). -/
theorem applyPreset_locked_frame (c : DailyTargetsConfig) (p : Preset) :
    (∀ d, c.locked d = true → (applyPreset c p).customTargets d = c.customTargets d) ∧
    (¬(unlockedDays c).isEmpty = true →
     ¬(c.weeklyTarget - lockedTotal c ≤ 0 ∨
       c.weeklyTarget - lockedTotal c <
         ((unlockedDays c).length : ℚ) * (5 / 60)) →
     0 < unlockedPresetTotal c p →
     (∀ d ∈ unlockedDays c, 5 / 60 ≤ presetTargets c p d *
        ((c.weeklyTarget - lockedTotal c) / unlockedPresetTotal c p)) →
     ((unlockedDays c).map fun d => ((applyPreset c p).customTargets d).getD 0).sum
        = c.weeklyTarget - lockedTotal c) := by
  have hnotmem : ∀ d, c.locked d = true → d ∉ unlockedDays c := by
    intro d hld hmem
    have hmem' : d ∈ WORKDAYS.filter fun d => !c.locked d := hmem
    have h2 : (!c.locked d) = true := (List.mem_filter.mp hmem').2
    rw [hld] at h2
    simp at h2
  by_cases hemp : (unlockedDays c).isEmpty = true
  · have hres : applyPreset c p = c := by
      rw [applyPreset, if_pos hemp]
    exact ⟨fun d _ => by rw [hres], fun h => absurd hemp h⟩
  · have hv := applyPreset_targets c p hemp
    refine ⟨fun d hld => by rw [hv d, if_neg (hnotmem d hld)], ?_⟩
    intro _ hfeas hB hclamp
    have hcong : ((unlockedDays c).map
        fun d => ((applyPreset c p).customTargets d).getD 0) =
        ((unlockedDays c).map fun d => presetTargets c p d *
          ((c.weeklyTarget - lockedTotal c) / unlockedPresetTotal c p)) := by
      apply List.map_congr_left
      intro d hd
      rw [hv d, if_pos hd, if_neg hfeas, if_pos hB]
      simp [max_eq_right (hclamp d hd)]
    rw [hcong, List.sum_map_mul_right,
      show ((unlockedDays c).map fun d => presetTargets c p d).sum
        = unlockedPresetTotal c p from rfl,
      mul_comm, div_mul_cancel₀ _ hB.ne']

/-- The concrete configuration for C5's witness: monday locked at 10 hours,
weekly target 34, so the front-loaded preset is rescaled onto the other four
days. -/
def witC5 : DailyTargetsConfig :=
  { modeCustom := true
    customTargets := fun d => match d with
      | .monday => some 10
      | _ => some 6
    weeklyTarget := 34
    locked := fun d => d == .monday }

/-- C5, witness: the front-loaded preset at `witC5` keeps locked monday at 10
and spends exactly the remaining 24 hours on the unlocked days. -/
theorem applyPreset_locked_frame_witness :
    (applyPreset witC5 .frontLoaded).customTargets Day.monday =
      witC5.customTargets Day.monday ∧
    ((unlockedDays witC5).map
      fun d => ((applyPreset witC5 .frontLoaded).customTargets d).getD 0).sum
        = witC5.weeklyTarget - lockedTotal witC5 := by
  have hlt : lockedTotal witC5 = 10 := by
    rw [lockedTotal,
      show (WORKDAYS.filter fun d => witC5.locked d) = [Day.monday] from by decide]
    norm_num [witC5]
  have hud : unlockedDays witC5 =
      [Day.tuesday, Day.wednesday, Day.thursday, Day.friday] := by decide
  have hup : unlockedPresetTotal witC5 .frontLoaded = 2617 / 100 := by
    rw [unlockedPresetTotal, hud]
    norm_num [presetTargets]
  have h := applyPreset_locked_frame witC5 .frontLoaded
  refine ⟨h.1 Day.monday rfl, h.2 (by decide) ?_ ?_ ?_⟩
  · rw [hlt, hud, show witC5.weeklyTarget = 34 from rfl]
    norm_num
  · rw [hup]
    norm_num
  · intro d hd
    rw [hud] at hd
    rw [hlt, hup, show witC5.weeklyTarget = 34 from rfl]
    fin_cases hd <;> norm_num [presetTargets]

/-- The invariant maintained on the reversed accumulator of the merge loop:
later periods (nearer the head) start more than 1 second after earlier
periods end, and every accumulated period has positive duration equal to
`stop - start`. -/
def goodAcc (acc : List Period) : Prop :=
  acc.Pairwise (fun a b => b.stop + 1 < a.start) ∧
  ∀ p ∈ acc, 0 < p.duration ∧ p.duration = p.stop - p.start

/-- One merge step preserves the accumulator invariant. -/
theorem mergeStep_good (acc : List Period) (p : Period)
    (hacc : goodAcc acc) (hp : 0 < p.duration ∧ p.duration = p.stop - p.start) :
    goodAcc (mergeStep acc p) := by
  obtain ⟨hpw, hmem⟩ := hacc
  cases acc with
  | nil =>
    refine ⟨List.pairwise_singleton _ _, ?_⟩
    intro q hq
    have hq' : q ∈ [p] := hq
    rw [List.mem_singleton.mp hq']
    exact hp
  | cons lastPeriod rest =>
    rw [mergeStep]
    have hlast := hmem lastPeriod (List.mem_cons_self _ _)
    have hlp : lastPeriod.start < lastPeriod.stop := by
      obtain ⟨h1, h2⟩ := hlast
      linarith
    by_cases hle : p.start ≤ lastPeriod.stop + 1
    · rw [if_pos hle]
      dsimp only
      have hend : lastPeriod.stop ≤
          (if lastPeriod.stop < p.stop then p.stop else lastPeriod.stop) := by
        by_cases h : lastPeriod.stop < p.stop
        · rw [if_pos h]
          exact le_of_lt h
        · rw [if_neg h]
      constructor
      · rw [List.pairwise_cons] at hpw ⊢
        exact ⟨fun b hb => hpw.1 b hb, hpw.2⟩
      · intro q hq
        rcases List.mem_cons.mp hq with h | h
        · subst h
          refine ⟨?_, rfl⟩
          dsimp only
          linarith
        · exact hmem q (List.mem_cons_of_mem _ h)
    · rw [if_neg hle]
      push_neg at hle
      constructor
      · rw [List.pairwise_cons]
        refine ⟨fun b hb => ?_, hpw⟩
        rcases List.mem_cons.mp hb with h | h
        · subst h
          exact hle
        · have h1 := (List.pairwise_cons.mp hpw).1 b h
          linarith
      · intro q hq
        rcases List.mem_cons.mp hq with h | h
        · subst h
          exact hp
        · exact hmem q h

/-- The whole merge loop preserves the accumulator invariant. -/
theorem foldl_mergeStep_good (l : List Period) : ∀ acc, goodAcc acc →
    (∀ p ∈ l, 0 < p.duration ∧ p.duration = p.stop - p.start) →
    goodAcc (l.foldl mergeStep acc) := by
  induction l with
  | nil => exact fun acc h _ => h
  | cons p t ih =>
    intro acc hacc hl
    exact ih _ (mergeStep_good acc p hacc (hl p (List.mem_cons_self _ _)))
      fun q hq => hl q (List.mem_cons_of_mem _ hq)

/-- Transfer the separation invariant to strict ordering of the starts. -/
theorem pairwise_start_lt (l : List Period)
    (h : l.Pairwise fun a b => a.stop + 1 < b.start)
    (hm : ∀ p ∈ l, p.start < p.stop) :
    l.Pairwise fun a b => a.start < b.start := by
  induction l with
  | nil => exact List.Pairwise.nil
  | cons a t ih =>
    rw [List.pairwise_cons] at h ⊢
    refine ⟨fun b hb => ?_, ih h.2 fun p hp => hm p (List.mem_cons_of_mem _ hp)⟩
    have h1 := h.1 b hb
    have h2 := hm a (List.mem_cons_self _ _)
    linarith

/-- C6: for every input list of clipped, positive-duration active periods,
the merger's output is separated by more than the 1-second fusion threshold
between consecutive periods, every output period has positive duration equal
to `stop - start` (hence `start < stop`), and the output is strictly sorted
by start — in particular, the spans are pairwise disjoint and chronological.
No sortedness of the input is even required for these output invariants. -/
theorem mergePeriods_invariants (activePeriods : List Period)
    (hin : ∀ p ∈ activePeriods, 0 < p.duration ∧ p.duration = p.stop - p.start) :
    (mergePeriods activePeriods).Pairwise (fun a b => a.stop + 1 < b.start) ∧
    List.Chain' (fun a b => a.stop + 1 < b.start) (mergePeriods activePeriods) ∧
    (∀ p ∈ mergePeriods activePeriods,
      0 < p.duration ∧ p.duration = p.stop - p.start ∧ p.start < p.stop) ∧
    (mergePeriods activePeriods).Pairwise fun a b => a.start < b.start := by
  have hg := foldl_mergeStep_good activePeriods [] ⟨List.Pairwise.nil, by simp⟩ hin
  obtain ⟨hpw, hmem⟩ := hg
  have hmem' : ∀ p ∈ mergePeriods activePeriods,
      0 < p.duration ∧ p.duration = p.stop - p.start := by
    intro p hp
    exact hmem p (List.mem_reverse.mp hp)
  have hpw' : (mergePeriods activePeriods).Pairwise
      fun a b => a.stop + 1 < b.start := by
    rw [mergePeriods, List.pairwise_reverse]
    exact hpw
  refine ⟨hpw', hpw'.chain', ?_, ?_⟩
  · intro p hp
    obtain ⟨h1, h2⟩ := hmem' p hp
    exact ⟨h1, h2, by linarith⟩
  · exact pairwise_start_lt _ hpw' fun p hp => by
      obtain ⟨h1, h2⟩ := hmem' p hp
      linarith

/-- C6, witness at a concrete pair of separated periods. -/
theorem mergePeriods_invariants_witness :
    (mergePeriods [⟨0, 5, 5⟩, ⟨10, 12, 2⟩]).Pairwise
      (fun a b => a.stop + 1 < b.start) ∧
    List.Chain' (fun a b => a.stop + 1 < b.start)
      (mergePeriods [⟨0, 5, 5⟩, ⟨10, 12, 2⟩]) ∧
    (mergePeriods [⟨0, 5, 5⟩, ⟨10, 12, 2⟩]).Pairwise
      fun a b => a.start < b.start :=
  have h := mergePeriods_invariants [⟨0, 5, 5⟩, ⟨10, 12, 2⟩] (by
    intro p hp
    fin_cases hp <;> norm_num)
  ⟨h.1, h.2.1, h.2.2.2⟩

/-- Structural description of the timeline loop on a non-empty merged list,
generalised over the running `currentTime` (which never exceeds the next
start): adjacent events abut exactly, the first event is the leading gap
filler (when there is a gap) or the first active period, the last event is
the last active period, and the accumulated inactive seconds are the leading
gap plus the interior gaps. -/
theorem timelineFrom_spec (rest : List Period) :
    ∀ (p : Period) (cur : ℚ), cur ≤ p.start →
    List.Chain' (fun a b => a.stop < b.start) (p :: rest) →
    (∀ q ∈ p :: rest, q.start < q.stop) →
    List.Chain' (fun a b => a.stop = b.start) (timelineFrom cur (p :: rest)).1 ∧
    (timelineFrom cur (p :: rest)).1.head? =
      some (if cur < p.start then inactiveEvent cur p.start else activeEvent p) ∧
    (timelineFrom cur (p :: rest)).1.getLast? =
      ((p :: rest).getLast?).map activeEvent ∧
    (timelineFrom cur (p :: rest)).2 =
      (if cur < p.start then p.start - cur else 0) + gapSum (p :: rest) := by
  induction rest with
  | nil =>
    intro p cur hcur hch hpos
    by_cases h : cur < p.start <;>
      simp [timelineFrom, h, gapSum, inactiveEvent, activeEvent]
  | cons q t ih =>
    intro p cur hcur hch hpos
    have hpq : p.stop < q.start := (List.chain'_cons.mp hch).1
    obtain ⟨ihch, ihhead, ihlast, ihina⟩ :=
      ih q p.stop (le_of_lt hpq) (List.chain'_cons.mp hch).2
        fun r hr => hpos r (List.mem_cons_of_mem _ hr)
    have hheadq : (timelineFrom p.stop (q :: t)).1.head? =
        some (inactiveEvent p.stop q.start) := by
      rw [ihhead, if_pos hpq]
    obtain ⟨e, t', htl⟩ : ∃ e t', (timelineFrom p.stop (q :: t)).1 = e :: t' := by
      cases hc : (timelineFrom p.stop (q :: t)).1 with
      | nil => rw [hc] at hheadq; simp at hheadq
      | cons e t' => exact ⟨e, t', rfl⟩
    have he : e = inactiveEvent p.stop q.start := by
      rw [htl] at hheadq
      simpa using hheadq
    have hchain2 : List.Chain' (fun a b => a.stop = b.start)
        (activeEvent p :: (timelineFrom p.stop (q :: t)).1) := by
      rw [List.chain'_cons']
      refine ⟨?_, ihch⟩
      intro b hb
      rw [hheadq] at hb
      simp only [Option.mem_def, Option.some_inj] at hb
      rw [← hb]
      rfl
    have hgap : gapSum (p :: q :: t) = (q.start - p.stop) + gapSum (q :: t) := rfl
    by_cases h : cur < p.start
    · have hunfold : timelineFrom cur (p :: q :: t) =
          (inactiveEvent cur p.start :: activeEvent p ::
            (timelineFrom p.stop (q :: t)).1,
           (p.start - cur) + (timelineFrom p.stop (q :: t)).2) := by
        simp only [timelineFrom, if_pos h]
      rw [hunfold]
      dsimp only
      refine ⟨?_, ?_, ?_, ?_⟩
      · rw [List.chain'_cons]
        exact ⟨rfl, hchain2⟩
      · rw [if_pos h]
        rfl
      · show (inactiveEvent cur p.start :: activeEvent p ::
            (timelineFrom p.stop (q :: t)).1).getLast? = _
        rw [htl, List.getLast?_cons_cons, List.getLast?_cons_cons, ← htl, ihlast,
          List.getLast?_cons_cons]
      · show (p.start - cur) + (timelineFrom p.stop (q :: t)).2 = _
        rw [ihina, if_pos hpq, if_pos h, hgap]
    · have hunfold : timelineFrom cur (p :: q :: t) =
          (activeEvent p :: (timelineFrom p.stop (q :: t)).1,
           (timelineFrom p.stop (q :: t)).2) := by
        simp only [timelineFrom, if_neg h]
      rw [hunfold]
      dsimp only
      refine ⟨hchain2, ?_, ?_, ?_⟩
      · rw [if_neg h]
        rfl
      · show (activeEvent p :: (timelineFrom p.stop (q :: t)).1).getLast? = _
        rw [htl, List.getLast?_cons_cons, ← htl, ihlast, List.getLast?_cons_cons]
      · show (timelineFrom p.stop (q :: t)).2 = _
        rw [ihina, if_pos hpq, if_neg h, hgap]
        ring

/-- C8: for every non-empty merged active-span list (consecutive spans
strictly separated, each with `start < stop`), the produced day timeline
starts with the first active span, ends with the last active span (no
inactive filler before the first or after the last activity), consecutive
timeline events abut exactly (`earlier.stop = later.start`), and
`totalInactiveSeconds` is exactly the sum of the interior gaps between
consecutive active spans. -/
theorem dayTimeline_gap_free (ps : List Period)
    (hch : List.Chain' (fun a b => a.stop < b.start) ps)
    (hpos : ∀ q ∈ ps, q.start < q.stop) :
    (dayTimeline ps).1.head? = ps.head?.map activeEvent ∧
    (dayTimeline ps).1.getLast? = ps.getLast?.map activeEvent ∧
    List.Chain' (fun a b => a.stop = b.start) (dayTimeline ps).1 ∧
    (dayTimeline ps).2 = gapSum ps := by
  cases ps with
  | nil => simp [dayTimeline, gapSum]
  | cons p rest =>
    obtain ⟨hchain, hhead, hlast, hina⟩ :=
      timelineFrom_spec rest p p.start le_rfl hch hpos
    rw [dayTimeline]
    refine ⟨?_, hlast, hchain, ?_⟩
    · rw [hhead, if_neg (lt_irrefl _)]
      rfl
    · rw [hina, if_neg (lt_irrefl _), zero_add]

/-- C8, witness at a concrete two-span merged list with one interior gap. -/
theorem dayTimeline_gap_free_witness :
    (dayTimeline [⟨0, 18, 18⟩, ⟨30, 50, 20⟩]).1.head? =
      ([⟨0, 18, 18⟩, ⟨30, 50, 20⟩] : List Period).head?.map activeEvent ∧
    (dayTimeline [⟨0, 18, 18⟩, ⟨30, 50, 20⟩]).1.getLast? =
      ([⟨0, 18, 18⟩, ⟨30, 50, 20⟩] : List Period).getLast?.map activeEvent ∧
    List.Chain' (fun a b => a.stop = b.start)
      (dayTimeline [⟨0, 18, 18⟩, ⟨30, 50, 20⟩]).1 ∧
    (dayTimeline [⟨0, 18, 18⟩, ⟨30, 50, 20⟩]).2 =
      gapSum [⟨0, 18, 18⟩, ⟨30, 50, 20⟩] :=
  dayTimeline_gap_free [⟨0, 18, 18⟩, ⟨30, 50, 20⟩]
    (by norm_num [List.chain'_cons])
    (by intro q hq; fin_cases hq <;> norm_num)

/-- A single `logStep` leaves a day untouched unless it targets that very day
with positive hours while the day is unlocked. -/
theorem logStep_skip (c : DailyTargetsConfig) (ct : Day → Option ℚ)
    (e : DayEntry) (d : Day)
    (h : e.day = some d → e.hours ≤ 0 ∨ c.locked d = true) :
    logStep c ct e d = ct d := by
  rw [logStep]
  by_cases h0 : e.hours ≤ 0
  · rw [if_pos h0]
  · rw [if_neg h0]
    cases hday : e.day with
    | none => rfl
    | some dayName =>
      show (if c.locked dayName = true then ct
        else fun d' => if d' = dayName then
          some (max (5 / 60) ((jsRound (e.hours * 12) : ℚ) / 12)) else ct d') d = ct d
      by_cases hlk : c.locked dayName
      · rw [if_pos hlk]
      · rw [if_neg hlk]
        show (if d = dayName then
          some (max (5 / 60) ((jsRound (e.hours * 12) : ℚ) / 12)) else ct d) = ct d
        rw [if_neg]
        intro hd
        rcases h (by rw [hday, hd]) with h1 | h1
        · exact h0 h1
        · exact hlk (hd ▸ h1)

/-- The whole fold leaves a day untouched when every entry for it is skipped
(non-positive hours or locked). -/
theorem logFold_skip (c : DailyTargetsConfig) (bd : List DayEntry) :
    ∀ (ct : Day → Option ℚ) (d : Day),
    (∀ e ∈ bd, e.day = some d → e.hours ≤ 0 ∨ c.locked d = true) →
    bd.foldl (logStep c) ct d = ct d := by
  induction bd with
  | nil => exact fun ct d _ => rfl
  | cons e t ih =>
    intro ct d hskip
    rw [List.foldl_cons,
      ih _ d fun f hf => hskip f (List.mem_cons_of_mem _ hf),
      logStep_skip c ct e d (hskip e (List.mem_cons_self _ _))]

/-- The fold writes the rounded-and-floored logged hours of the (unique)
entry for an unlocked day with positive hours. -/
theorem logFold_write (c : DailyTargetsConfig) (bd : List DayEntry) :
    ∀ (ct : Day → Option ℚ) (e : DayEntry) (d : Day),
    (bd.filterMap DayEntry.day).Nodup →
    e ∈ bd → e.day = some d → 0 < e.hours → c.locked d = false →
    bd.foldl (logStep c) ct d =
      some (max (5 / 60) ((jsRound (e.hours * 12) : ℚ) / 12)) := by
  induction bd with
  | nil =>
    intro ct e d _ hmem
    cases hmem
  | cons f t ih =>
    intro ct e d hnd hmem hday hpos hlk
    rw [List.foldl_cons]
    rcases List.mem_cons.mp hmem with heq | hmem'
    · subst heq
      have hdmem : d ∈ List.filterMap DayEntry.day (e :: t) := by
        rw [List.filterMap_cons, hday]
        exact List.mem_cons_self _ _
      have hnotin : ∀ f ∈ t, f.day ≠ some d := by
        intro f hf hfd
        have hdt : d ∈ t.filterMap DayEntry.day :=
          List.mem_filterMap.mpr ⟨f, hf, hfd⟩
        rw [List.filterMap_cons, hday] at hnd
        exact (List.nodup_cons.mp hnd).1 hdt
      rw [logFold_skip c t _ d fun f hf hfd => absurd hfd (hnotin f hf)]
      rw [logStep, if_neg (not_le.mpr hpos)]
      cases hday' : e.day with
      | none =>
        rw [hday'] at hday
        cases hday
      | some dayName =>
        rw [hday'] at hday
        have hdn : dayName = d := by
          injection hday
        subst hdn
        show (if c.locked dayName = true then ct
          else fun d' => if d' = dayName then
            some (max (5 / 60) ((jsRound (e.hours * 12) : ℚ) / 12))
          else ct d') dayName = _
        rw [if_neg (by simp [hlk] : ¬c.locked dayName = true)]
        show (if dayName = dayName then
          some (max (5 / 60) ((jsRound (e.hours * 12) : ℚ) / 12))
          else ct dayName) = _
        rw [if_pos rfl]
    · have hndt : (t.filterMap DayEntry.day).Nodup := by
        rw [List.filterMap_cons] at hnd
        cases hfd : f.day with
        | none =>
          rw [hfd] at hnd
          exact hnd
        | some dd =>
          rw [hfd] at hnd
          exact (List.nodup_cons.mp hnd).2
      exact ih _ e d hndt hmem' hday hpos hlk

/-- C9: with a weekly summary whose weekday entries are distinct,
`setFromLoggedData` (a) never changes a locked day, (b) never changes a day
all of whose entries have non-positive logged hours, and (c) sets every
unlocked day with a positive-hours entry to those hours rounded to the
nearest 5-minute increment and floored at 5 minutes. -/
theorem setFromLoggedData_spec (c : DailyTargetsConfig) (bd : List DayEntry)
    (hnd : (bd.filterMap DayEntry.day).Nodup) :
    (∀ d, c.locked d = true →
      (setFromLoggedData c bd).customTargets d = c.customTargets d) ∧
    (∀ d, (∀ e ∈ bd, e.day = some d → e.hours ≤ 0) →
      (setFromLoggedData c bd).customTargets d = c.customTargets d) ∧
    (∀ e ∈ bd, ∀ d, e.day = some d → 0 < e.hours → c.locked d = false →
      (setFromLoggedData c bd).customTargets d =
        some (max (5 / 60) ((jsRound (e.hours * 12) : ℚ) / 12))) := by
  refine ⟨?_, ?_, ?_⟩
  · intro d hld
    exact logFold_skip c bd c.customTargets d fun e _ _ => Or.inr hld
  · intro d hz
    exact logFold_skip c bd c.customTargets d fun e he hd => Or.inl (hz e he hd)
  · intro e he d hday hpos hlk
    exact logFold_write c bd c.customTargets e d hnd he hday hpos hlk

/-- The configuration and summary for C9's witness: wednesday locked, all
stored targets 2 hours; the summary logs 7.4 h on monday, 3 h on a weekend
date, 0 h on tuesday and 5 h on the locked wednesday. -/
def witC9 : DailyTargetsConfig :=
  { modeCustom := true
    customTargets := fun _ => some 2
    weeklyTarget := 34
    locked := fun d => d == .wednesday }

/-- The breakdown entries for C9's witness. -/
def bdC9 : List DayEntry :=
  [⟨some .monday, 37 / 5⟩, ⟨none, 3⟩, ⟨some .tuesday, 0⟩, ⟨some .wednesday, 5⟩]

/-- C9, witness: the locked wednesday and the zero-hours tuesday keep their
stored 2 hours, while monday becomes 7.4 h rounded to the nearest 5-minute
increment (89/12 h). -/
theorem setFromLoggedData_spec_witness :
    (setFromLoggedData witC9 bdC9).customTargets Day.wednesday =
      witC9.customTargets Day.wednesday ∧
    (setFromLoggedData witC9 bdC9).customTargets Day.tuesday =
      witC9.customTargets Day.tuesday ∧
    (setFromLoggedData witC9 bdC9).customTargets Day.monday =
      some (max (5 / 60) ((jsRound ((37 : ℚ) / 5 * 12) : ℚ) / 12)) := by
  have h := setFromLoggedData_spec witC9 bdC9 (by decide)
  refine ⟨h.1 Day.wednesday rfl, h.2.1 Day.tuesday ?_, ?_⟩
  · intro e he hd
    fin_cases he <;> simp_all [bdC9]
  · exact h.2.2 ⟨some .monday, 37 / 5⟩ (List.mem_cons_self _ _) Day.monday rfl
      (by norm_num) rfl

end AwWebui
